import Mathlib

/-! Verification development for the EAMCET allotment scraper
(src/scrape.js): CSV serialization (`convertToCsv`), results-table
extraction (the `page.evaluate` callback), dropdown option filtering,
and the college/branch crawl loop of `scrapeAllotments`.

Strings are modelled at the character-list level (`List Char`), which is
exactly the representation of `String` in this Lean version. -/

/-- JavaScript runtime values that appear in scraped records: strings,
numbers (modelled as integers, with `none` standing for NaN), `null`
and `undefined`. -/
inductive JsValue where
  | vStr (s : String)
  | vNum (n : Option Int)
  | vNull
  | vUndef
  deriving DecidableEq, Repr

/-- A JavaScript object as produced by the extractor: an association list
of property names to values, in insertion order. -/
abbrev JsRecord := List (String × JsValue)

/-- JavaScript property access `row[header]`: absent keys read as
`undefined`. -/
def jsLookup (k : String) : JsRecord → JsValue
  | [] => JsValue.vUndef
  | (k2, v) :: r => if k2 = k then v else jsLookup k r

/-- `value.replace` doubling every quote character (src/scrape.js 32). -/
def doubleQuotesL : List Char → List Char
  | [] => []
  | c :: cs => if c = '"' then '"' :: '"' :: doubleQuotesL cs else c :: doubleQuotesL cs

/-- `array.join(sep)` on character lists. -/
def joinSep (sep : Char) : List (List Char) → List Char
  | [] => []
  | [f] => f
  | f :: f2 :: fs => f ++ sep :: joinSep sep (f2 :: fs)

/-- One CSV field as emitted for a string value (src/scrape.js 30-35):
quotes doubled, then the field wrapped in quotes when it contains the
delimiter or a newline (the check runs on the escaped text, as in the
source). -/
def escapeL (s : List Char) : List Char :=
  let e := doubleQuotesL s
  if ',' ∈ e ∨ '\n' ∈ e then '"' :: e ++ [ '"' ] else e

/-- Serialization of one record value to CSV field text
(src/scrape.js 28-40): strings via `escapeL`; numbers stringified by
`join` (NaN prints as `NaN`); `null`/`undefined` become the empty
field. -/
def serializeValueL : JsValue → List Char
  | JsValue.vStr s => escapeL s.data
  | JsValue.vNum (some n) => (toString n).data
  | JsValue.vNum none => [ 'N', 'a', 'N' ]
  | JsValue.vNull => []
  | JsValue.vUndef => []

/-- `convertToCsv` from src/scrape.js 14-45: empty input gives the empty
string; otherwise headers are the keys of the first record, each wrapped
in quotes; every record is rendered in header order via
`serializeValueL`; rows joined by newlines. -/
def convertToCsv (rows : List JsRecord) : String :=
  match rows with
  | [] => ""
  | first :: _ =>
    let headers := first.map Prod.fst
    let headerRow := joinSep ',' (headers.map (fun h => '"' :: h.data ++ [ '"' ]))
    let dataRows := rows.map (fun row =>
      joinSep ',' (headers.map (fun h => serializeValueL (jsLookup h row))))
    String.mk (joinSep '\n' (headerRow :: dataRows))

/-- Decimal digit accumulation for `jsToNumber`. -/
def digitsVal (ds : List Char) : Nat :=
  ds.foldl (fun a c => a * 10 + (c.toNat - 48)) 0

/-- JavaScript unary plus on a trimmed string, restricted to the decimal
integers the site produces: the empty string is 0, an optional minus
sign followed by digits parses, anything else is NaN (`none`). -/
def jsToNumber (s : String) : Option Int :=
  match s.data with
  | [] => some 0
  | '-' :: ds =>
    if ds ≠ [] ∧ ds.all Char.isDigit then some (-(digitsVal ds : Int)) else none
  | ds => if ds.all Char.isDigit then some ((digitsVal ds : Int)) else none

/-- JavaScript `string.trim()`: strip leading and trailing whitespace. -/
def trimL (s : List Char) : List Char :=
  ((s.dropWhile Char.isWhitespace).reverse.dropWhile Char.isWhitespace).reverse

/-- `trim` packaged on strings. -/
def jsTrim (s : String) : String :=
  String.mk (trimL s.data)

/-- `cells[i]?.innerText.trim()`: `none` when the cell is missing. -/
def cellText (cells : List String) (i : Nat) : Option String :=
  (cells.get? i).map jsTrim

/-- `+cells[i]?.innerText.trim()`: unary plus of a missing cell is NaN. -/
def numCell (cells : List String) (i : Nat) : JsValue :=
  match cellText cells i with
  | none => JsValue.vNum none
  | some s => JsValue.vNum (jsToNumber s)

/-- `cells[i]?.innerText.trim()` stored as-is: a missing cell gives
`undefined`. -/
def strCell (cells : List String) (i : Nat) : JsValue :=
  match cellText cells i with
  | none => JsValue.vUndef
  | some s => JsValue.vStr s

/-- The record literal pushed for one table row (src/scrape.js 159-168). -/
def mkRecord (cells : List String) : JsRecord :=
  [ ("sno", numCell cells 0), ("hallticketno", strCell cells 1),
    ("rank", numCell cells 2), ("name", strCell cells 3),
    ("sex", strCell cells 4), ("caste", strCell cells 5),
    ("region", strCell cells 6), ("seatcategory", strCell cells 7) ]

/-- The loop of src/scrape.js 156-170 over the rows after the header:
a row contributes a record exactly when it has more than one cell. -/
def extractRows : List (List String) → List JsRecord
  | [] => []
  | r :: rs => if 1 < r.length then mkRecord r :: extractRows rs else extractRows rs

/-- The `page.evaluate` table extraction (src/scrape.js 152-172): all
`tr` rows of the results table, skipping index 0 (the header). -/
def extractTable (rows : List (List String)) : List JsRecord :=
  extractRows (rows.drop 1)

/-- A DOM `<option>` element: its text and value. -/
structure DomOption where
  text : String
  value : String
  deriving DecidableEq, Repr

/-- The `\x7b name, value \x7d` pair built from a DOM option. -/
structure OptionEntry where
  name : String
  value : String
  deriving DecidableEq, Repr

/-- College dropdown read (src/scrape.js 86-90): map options to
name/value pairs, then drop entries whose value is the empty string. -/
def listTopLevelOptions (opts : List DomOption) : List OptionEntry :=
  (opts.map (fun o => OptionEntry.mk o.text o.value)).filter (fun o => o.value != "")

/-- Branch dropdown read (src/scrape.js 121-125): same mapping, dropping
entries whose value is the string 0. -/
def listSecondLevelOptions (opts : List DomOption) : List OptionEntry :=
  (opts.map (fun o => OptionEntry.mk o.text o.value)).filter (fun o => o.value != "0")

/-- The per-leaf behaviour of the remote site, as visible to one branch
loop iteration: whether the submit sequence (college re-select, branch
select, submit click, navigation waits, src/scrape.js 136-146) succeeds,
whether the results-table selector appears within its bounded wait
(line 151), the table rows when it does, and whether each of the two
`goBack` calls (line 193 in the try block, line 204 in the catch block)
succeeds. -/
structure LeafEnv where
  submitOk : Bool
  tablePresent : Bool
  tableRows : List (List String)
  goBackTryOk : Bool
  goBackCatchOk : Bool
  deriving DecidableEq, Repr

/-- The LeafResult of one crawl unit. -/
inductive LeafOutcome where
  | failed
  | empty
  | records (n : Nat)
  deriving DecidableEq, Repr

/-- What one branch iteration did: the leaf's outcome, whether a CSV
file was written, and whether the loop breaks (abandoning the remaining
branches of the current college). -/
structure LeafTrace where
  outcome : LeafOutcome
  fileWritten : Bool
  abandon : Bool
  deriving DecidableEq, Repr

/-- One iteration of the branch loop (src/scrape.js 129-213). A fault
before extraction (submit failure or missing table) lands in the catch
block with outcome Failed; a completed extraction fixes the outcome
(Empty or Records) and writes a file exactly when records exist (lines
175-189); the iteration breaks out of the branch loop only when the
try-block path raised and the catch-block `goBack` retry also fails
(line 210). -/
def runLeaf (e : LeafEnv) : LeafTrace :=
  if e.submitOk then
    if e.tablePresent then
      let tableData := extractTable e.tableRows
      let written := decide (0 < tableData.length)
      let out :=
        if 0 < tableData.length then LeafOutcome.records tableData.length
        else LeafOutcome.empty
      if e.goBackTryOk then LeafTrace.mk out written false
      else LeafTrace.mk out written (!e.goBackCatchOk)
    else LeafTrace.mk LeafOutcome.failed false (!e.goBackCatchOk)
  else LeafTrace.mk LeafOutcome.failed false (!e.goBackCatchOk)

/-- The branch loop (src/scrape.js 129-213): leaves processed in order,
stopping after a leaf whose iteration breaks. -/
def runBranches : List LeafEnv → List LeafTrace
  | [] => []
  | e :: es =>
    let t := runLeaf e
    if t.abandon then [t] else t :: runBranches es

/-- The college loop (src/scrape.js 101-214): each college's branch list
is processed independently, in order. -/
def crawl (colleges : List (List LeafEnv)) : List (List LeafTrace) :=
  colleges.map runBranches

/-! ## The spec-side deserializer

The repository has no deserializer; the spec asserts a round-trip
`deserialize(serialize(R)) == R`. The definitions below follow the
spec's escaping rules in reverse: split the document into lines and
each line into fields, where a separator only separates when it stands
outside quotes; then a field that is wrapped in quotes is stripped and
its doubled quotes undoubled, and any other field is read literally. -/

/-- Prepend a character to the first chunk of a split result. -/
def consHead (c : Char) : List (List Char) → List (List Char)
  | [] => [ [c] ]
  | h :: t => (c :: h) :: t

/-- Prepend a chunk to the first chunk of a split result. -/
def consChunk (f : List Char) : List (List Char) → List (List Char)
  | [] => [f]
  | h :: t => (f ++ h) :: t

/-- Quote-aware splitting: `inQ` tracks whether the scan is inside a
quoted region (every quote character toggles it); `sep` splits only
outside quotes. -/
def splitQAux (sep : Char) : Bool → List Char → List (List Char)
  | _, [] => [ [] ]
  | inQ, c :: cs =>
    if c = '"' then consHead c (splitQAux sep (!inQ) cs)
    else if c = sep ∧ inQ = false then [] :: splitQAux sep inQ cs
    else consHead c (splitQAux sep inQ cs)

/-- Quote-aware splitting, starting outside quotes. -/
def splitQ (sep : Char) (s : List Char) : List (List Char) :=
  splitQAux sep false s

/-- Undo quote doubling: every adjacent pair of quotes becomes one. -/
def undoubleL : List Char → List Char
  | [] => []
  | [c] => [c]
  | c :: c2 :: cs =>
    if c = '"' ∧ c2 = '"' then '"' :: undoubleL cs else c :: undoubleL (c2 :: cs)

/-- Read one CSV field back: a field wrapped in quotes is stripped and
undoubled, any other field is literal text. -/
def unescapeL (f : List Char) : List Char :=
  if 2 ≤ f.length ∧ f.head? = some '"' ∧ f.getLast? = some '"' then
    undoubleL (f.dropLast.drop 1)
  else f

/-- The deserializer the spec's round-trip property refers to
(spec §8, against the escaping rules of spec §4.4): the first line is
the header (its fields unescaped are the property names); every further
line becomes one record, pairing the header names with the line's
unescaped fields read back as strings. -/
def deserializeCsv (s : String) : List JsRecord :=
  match splitQ '\n' s.data with
  | [] => []
  | hl :: rls =>
    let headers := (splitQ ',' hl).map (fun f => String.mk (unescapeL f))
    rls.map (fun rl =>
      headers.zip ((splitQ ',' rl).map (fun f => JsValue.vStr (String.mk (unescapeL f)))))

/-- A chunk that quote-aware splitting always passes over whole: pasting
anything after it, the splitter returns the chunk glued onto the head of
the remainder's split. -/
def Pushable (sep : Char) (f : List Char) : Prop :=
  ∀ l, splitQAux sep false (f ++ l) = consChunk f (splitQAux sep false l)

/-! ## Theorems -/

lemma extractRows_eq_filter (rs : List (List String)) :
    extractRows rs = (rs.filter (fun r => decide (1 < r.length))).map mkRecord := by
  induction rs with
  | nil => rfl
  | cons r t ih =>
    by_cases h : 1 < r.length <;> simp [extractRows, h, ih, List.filter_cons]

/-- C6: for a table of a header row followed by data rows, extraction
skips row 0, includes a data row exactly when it has more than one
cell, and keeps source order (it is the in-order filter-and-map of the
data rows); consequently when every data row has at least two cells the
output has exactly one record per data row. -/
theorem extractTable_rows (hdr : List String) (dataRows : List (List String)) :
    extractTable (hdr :: dataRows) =
      (dataRows.filter (fun r => decide (1 < r.length))).map mkRecord
    ∧ (∀ hdr2, extractTable (hdr2 :: dataRows) = extractTable (hdr :: dataRows))
    ∧ ((∀ r ∈ dataRows, 2 ≤ r.length) →
        (extractTable (hdr :: dataRows)).length = dataRows.length) := by
  refine ⟨by simp [extractTable, extractRows_eq_filter], fun hdr2 => rfl, fun hall => ?_⟩
  have : dataRows.filter (fun r => decide (1 < r.length)) = dataRows :=
    List.filter_eq_self.mpr (fun r hr => by simpa using hall r hr)
  simp [extractTable, extractRows_eq_filter, this]

/-- C6 witness at a concrete two-row table. -/
theorem extractTable_rows_witness :
    (extractTable [ ["h"], ["1", "HT1"], ["2", "HT2"] ]).length = 2 :=
  (extractTable_rows ["h"] [ ["1", "HT1"], ["2", "HT2"] ]).2.2 (by decide)

lemma mem_doubleQuotesL (c : Char) (hc : c ≠ '"') (s : List Char) :
    c ∈ doubleQuotesL s ↔ c ∈ s := by
  induction s with
  | nil => simp [doubleQuotesL]
  | cons a t ih =>
    by_cases ha : a = '"'
    · subst ha; simp [doubleQuotesL, ih, hc]
    · simp [doubleQuotesL, ha, ih]

/-- C7: the serializer doubles embedded quote characters and wraps a
string field in quotes exactly when the original value contains the
field delimiter (comma) or a newline; in particular the field value
`He said "hi", bye` serializes to `"He said ""hi"", bye"`. -/
theorem serializeValue_escaping :
    (∀ s : String, serializeValueL (JsValue.vStr s) =
      (if ',' ∈ s.data ∨ '\n' ∈ s.data
       then '"' :: doubleQuotesL s.data ++ [ '"' ]
       else doubleQuotesL s.data))
    ∧ serializeValueL (JsValue.vStr "He said \"hi\", bye") =
        ("\"He said \"\"hi\"\", bye\"").data := by
  constructor
  · intro s
    have hc : (',' ∈ doubleQuotesL s.data ∨ '\n' ∈ doubleQuotesL s.data) ↔
        (',' ∈ s.data ∨ '\n' ∈ s.data) := by
      rw [mem_doubleQuotesL ',' (by decide) s.data, mem_doubleQuotesL '\n' (by decide) s.data]
    simp only [serializeValueL, escapeL]
    by_cases h : ',' ∈ s.data ∨ '\n' ∈ s.data
    · rw [if_pos (hc.mpr h), if_pos h]
    · rw [if_neg (fun hx => h (hc.mp hx)), if_neg h]
  · decide

/-- C8: serializing the empty sequence gives the empty string, and a
leaf writes a file exactly when it yields at least one record: an Empty
outcome never writes a file. -/
theorem emptySerialize_noFile :
    convertToCsv [] = ""
    ∧ ∀ e : LeafEnv,
        ((runLeaf e).outcome = LeafOutcome.empty → (runLeaf e).fileWritten = false)
        ∧ ((runLeaf e).fileWritten = true →
            ∃ n, 0 < n ∧ (runLeaf e).outcome = LeafOutcome.records n) := by
  refine ⟨rfl, fun e => ?_⟩
  obtain ⟨s, t, rows, g1, g2⟩ := e
  cases s <;> cases t <;> cases g1 <;> cases g2 <;>
    by_cases h : 0 < (extractTable rows).length <;>
      simp [runLeaf, h]

/-- C8 witness: a header-only table yields Empty and no file. -/
theorem emptySerialize_noFile_witness :
    (runLeaf (LeafEnv.mk true true [ ["h"] ] true true)).fileWritten = false :=
  (emptySerialize_noFile.2 (LeafEnv.mk true true [ ["h"] ] true true)).1 (by decide)

/-- C9: the top-level listing excludes exactly the options whose value
is the empty string, the second-level listing excludes exactly those
whose value is the string 0; the two rules are independent (each listing
tests only its own sentinel) and both preserve dropdown order. -/
theorem dropdown_option_filters :
    (∀ (opts : List DomOption) (e : OptionEntry),
      e ∈ listTopLevelOptions opts ↔
        e ∈ opts.map (fun o => OptionEntry.mk o.text o.value) ∧ e.value ≠ "")
    ∧ (∀ (opts : List DomOption) (e : OptionEntry),
      e ∈ listSecondLevelOptions opts ↔
        e ∈ opts.map (fun o => OptionEntry.mk o.text o.value) ∧ e.value ≠ "0")
    ∧ (∀ opts : List DomOption,
      (listTopLevelOptions opts).Sublist (opts.map (fun o => OptionEntry.mk o.text o.value))
      ∧ (listSecondLevelOptions opts).Sublist
          (opts.map (fun o => OptionEntry.mk o.text o.value))) := by
  refine ⟨fun opts e => ?_, fun opts e => ?_, fun opts => ⟨?_, ?_⟩⟩
  · simp [listTopLevelOptions, List.mem_filter, bne_iff_ne]
  · simp [listSecondLevelOptions, List.mem_filter, bne_iff_ne]
  · exact List.filter_sublist _
  · exact List.filter_sublist _

/-- C2 counterexample: the page settles and recovery works, but the
results table is absent: the bounded wait for the table selector raises
before extraction, so the leaf outcome is Failed, not Empty. -/
theorem absentTable_failed_counterexample :
    (runLeaf (LeafEnv.mk true false [] true true)).outcome = LeafOutcome.failed
    ∧ (runLeaf (LeafEnv.mk true false [] true true)).outcome ≠ LeafOutcome.empty := by
  decide

/-- C2 amended: the extraction callback returns no records for a table
with at most a header row and such a leaf finishes Empty (no error);
but when the table is absent the bounded wait for the table selector
raises, so the leaf finishes Failed, not Empty. -/
theorem absentTable_amended (e : LeafEnv) (hs : e.submitOk = true) :
    (e.tablePresent = true → e.tableRows.length ≤ 1 →
      extractTable e.tableRows = [] ∧ (runLeaf e).outcome = LeafOutcome.empty)
    ∧ (e.tablePresent = false → (runLeaf e).outcome = LeafOutcome.failed) := by
  constructor
  · intro ht hlen
    have hdrop : e.tableRows.drop 1 = [] := List.drop_eq_nil_of_le hlen
    have hx : extractTable e.tableRows = [] := by
      simp [extractTable, hdrop, extractRows]
    refine ⟨hx, ?_⟩
    cases hg : e.goBackTryOk <;> simp [runLeaf, hs, ht, hx, hg]
  · intro ht
    simp [runLeaf, hs, ht]

/-- C2 amended witness at a header-only table. -/
theorem absentTable_amended_witness :
    extractTable [ ["h"] ] = []
    ∧ (runLeaf (LeafEnv.mk true true [ ["h"] ] true true)).outcome = LeafOutcome.empty :=
  (absentTable_amended (LeafEnv.mk true true [ ["h"] ] true true) (by decide)).1
    (by decide) (by decide)

/-- C4: a NavigationError during submitLeaf is caught at the leaf
boundary: the leaf finishes Failed with no file written, extraction is
never consulted (the result does not depend on the table rows at all),
recovery runs, and when the catch-block goBack succeeds the next leaf
is attempted; and whatever happens, the remaining colleges are still
processed. -/
theorem submitFault_isolated (e : LeafEnv) (h : e.submitOk = false) :
    (runLeaf e).outcome = LeafOutcome.failed
    ∧ (runLeaf e).fileWritten = false
    ∧ (∀ rows, runLeaf (LeafEnv.mk false e.tablePresent rows e.goBackTryOk e.goBackCatchOk)
        = runLeaf e)
    ∧ (runLeaf e).abandon = !e.goBackCatchOk
    ∧ (∀ es : List LeafEnv, e.goBackCatchOk = true →
        runBranches (e :: es) = runLeaf e :: runBranches es)
    ∧ (∀ (es : List LeafEnv) (cs : List (List LeafEnv)),
        crawl ((e :: es) :: cs) = runBranches (e :: es) :: crawl cs) := by
  refine ⟨by simp [runLeaf, h], by simp [runLeaf, h], fun rows => by simp [runLeaf, h],
    by simp [runLeaf, h], fun es hg => ?_, fun es cs => rfl⟩
  simp [runBranches, runLeaf, h, hg]

/-- C4 witness: a submit fault with working recovery, followed by a
normal leaf. -/
theorem submitFault_isolated_witness :
    runBranches [LeafEnv.mk false true [] true true, LeafEnv.mk true true [ ["h"] ] true true]
      = runLeaf (LeafEnv.mk false true [] true true)
        :: runBranches [LeafEnv.mk true true [ ["h"] ] true true] :=
  (submitFault_isolated (LeafEnv.mk false true [] true true) (by decide)).2.2.2.2.1
    [LeafEnv.mk true true [ ["h"] ] true true] (by decide)

/-- C5 counterexample: leaf (A,X) succeeds with one record, the
try-block goBack fails, but the catch-block retry succeeds: the next
leaf (A,Y) IS attempted, contradicting the claim that any returnToForm
failure after a finalized outcome skips the rest of the college. -/
theorem recoverRetry_counterexample :
    (runLeaf (LeafEnv.mk true true [ ["h"], ["1", "HT1"] ] false true)).outcome
      = LeafOutcome.records 1
    ∧ (LeafEnv.mk true true [ ["h"], ["1", "HT1"] ] false true).goBackTryOk = false
    ∧ runBranches
        [ LeafEnv.mk true true [ ["h"], ["1", "HT1"] ] false true,
          LeafEnv.mk true true [ ["h"] ] true true ]
      = [ runLeaf (LeafEnv.mk true true [ ["h"], ["1", "HT1"] ] false true),
          runLeaf (LeafEnv.mk true true [ ["h"] ] true true) ] := by
  decide

/-- C5 amended: when the try-block goBack fails after a leaf's outcome
is finalized and the catch-block retry also fails, the remaining
branches of the current college are never attempted and the crawl
proceeds directly to the next college. -/
theorem recover_double_fault_abandons (e : LeafEnv) (es : List LeafEnv)
    (hs : e.submitOk = true) (ht : e.tablePresent = true)
    (h1 : e.goBackTryOk = false) (h2 : e.goBackCatchOk = false) :
    ((runLeaf e).outcome = LeafOutcome.empty
      ∨ (runLeaf e).outcome = LeafOutcome.records (extractTable e.tableRows).length)
    ∧ runBranches (e :: es) = [runLeaf e]
    ∧ (∀ cs : List (List LeafEnv), crawl ((e :: es) :: cs) = [runLeaf e] :: crawl cs) := by
  have hab : (runLeaf e).abandon = true := by
    simp [runLeaf, hs, ht, h1, h2]
  have hbr : runBranches (e :: es) = [runLeaf e] := by
    simp [runBranches, hab]
  refine ⟨?_, hbr, fun cs => ?_⟩
  · by_cases hlen : 0 < (extractTable e.tableRows).length
    · right; simp [runLeaf, hs, ht, h1, hlen]
    · left; simp [runLeaf, hs, ht, h1, hlen]
  · show runBranches (e :: es) :: crawl cs = [runLeaf e] :: crawl cs
    rw [hbr]

/-- C5 amended witness: a successful leaf whose goBack and retry both
fail abandons the remaining branch. -/
theorem recover_double_fault_abandons_witness :
    runBranches
      [ LeafEnv.mk true true [ ["h"], ["1", "HT1"] ] false false,
        LeafEnv.mk true true [ ["h"] ] true true ]
      = [ runLeaf (LeafEnv.mk true true [ ["h"], ["1", "HT1"] ] false false) ] :=
  (recover_double_fault_abandons
    (LeafEnv.mk true true [ ["h"], ["1", "HT1"] ] false false)
    [ LeafEnv.mk true true [ ["h"] ] true true ]
    (by decide) (by decide) (by decide) (by decide)).2.1

/-- C3 counterexample: a single college with a single branch whose
post-leaf goBack and catch retry both fail: a returnToForm fault occurs
and abandonment triggers, yet the college's attempted count equals its
full branch count (1), not strictly less. -/
theorem coverage_lastLeaf_counterexample :
    (runLeaf (LeafEnv.mk true true [ ["h"], ["1", "HT1"] ] false false)).abandon = true
    ∧ crawl [ [ LeafEnv.mk true true [ ["h"], ["1", "HT1"] ] false false ] ]
        = [ [ runLeaf (LeafEnv.mk true true [ ["h"], ["1", "HT1"] ] false false) ] ]
    ∧ (crawl [ [ LeafEnv.mk true true [ ["h"], ["1", "HT1"] ] false false ] ]).map
        List.length = [1]
    ∧ ¬ (1 < 1) := by
  decide

/-- C3 amended: the crawl visits every college; each college's trace
depends only on its own branch list; when no leaf of a college triggers
abandonment every branch is attempted exactly once, in order; and when
a college's first abandoning leaf (an unrecovered returnToForm fault or
an unrecovered leaf fault) comes after the non-abandoning prefix `c1`,
exactly the leaves up to and including it are attempted: strictly fewer
than the full count precisely when further branches remained. -/
theorem coverage_amended (colleges : List (List LeafEnv)) :
    (crawl colleges).length = colleges.length
    ∧ (∀ i, (crawl colleges).get? i = (colleges.get? i).map runBranches)
    ∧ (∀ c : List LeafEnv, (∀ x ∈ c, (runLeaf x).abandon = false) →
        runBranches c = c.map runLeaf)
    ∧ (∀ (c1 : List LeafEnv) (e : LeafEnv) (c2 : List LeafEnv),
        (∀ x ∈ c1, (runLeaf x).abandon = false) → (runLeaf e).abandon = true →
        runBranches (c1 ++ e :: c2) = (c1 ++ [e]).map runLeaf
        ∧ (runBranches (c1 ++ e :: c2)).length = c1.length + 1) := by
  refine ⟨by simp [crawl], fun i => by simp [crawl], fun c h => ?_, fun c1 e c2 h1 h2 => ?_⟩
  · induction c with
    | nil => rfl
    | cons x t ih =>
      have hx := h x (List.mem_cons_self x t)
      have ht := ih (fun y hy => h y (List.mem_cons_of_mem x hy))
      simp [runBranches, hx, ht]
  · have heq : runBranches (c1 ++ e :: c2) = (c1 ++ [e]).map runLeaf := by
      induction c1 with
      | nil => simp [runBranches, h2]
      | cons x t ih =>
        have hx := h1 x (List.mem_cons_self x t)
        have ht := ih (fun y hy => h1 y (List.mem_cons_of_mem x hy))
        simp [runBranches, hx, ht]
    exact ⟨heq, by simp [heq]⟩

/-- C3 amended witness: abandonment at the middle leaf of a three-leaf
college: exactly the first two leaves are attempted. -/
theorem coverage_amended_witness :
    runBranches
      [ LeafEnv.mk true true [ ["h"] ] true true,
        LeafEnv.mk false true [] true false,
        LeafEnv.mk true true [ ["h"] ] true true ]
      = [ LeafEnv.mk true true [ ["h"] ] true true,
          LeafEnv.mk false true [] true false ].map runLeaf :=
  ((coverage_amended []).2.2.2 [ LeafEnv.mk true true [ ["h"] ] true true ]
    (LeafEnv.mk false true [] true false)
    [ LeafEnv.mk true true [ ["h"] ] true true ] (by decide) (by decide)).1

/-- C10 counterexample: a two-cell row (included, as it has more than
one cell) produces a record whose missing rank field is the number NaN,
not undefined, and it serializes as the text NaN, not as an empty
field. -/
theorem shortRow_nan_counterexample :
    jsLookup "rank" (mkRecord ["1", "HT1"]) = JsValue.vNum none
    ∧ jsLookup "rank" (mkRecord ["1", "HT1"]) ≠ JsValue.vUndef
    ∧ convertToCsv [mkRecord ["1", "HT1"]] =
        "\"sno\",\"hallticketno\",\"rank\",\"name\",\"sex\",\"caste\",\"region\",\"seatcategory\"\n1,HT1,NaN,,,,," := by
  decide

/-- C10 amended: every extracted record has exactly the eight fields, in
order; a missing cell leaves each of the six string fields undefined
(serialized as an empty field), while the two numeric fields sno and
rank of a missing cell become the number NaN (serialized as the text
NaN); serialization is a total function, so short rows never fail. -/
theorem shortRow_amended (cells : List String) :
    (mkRecord cells).map Prod.fst =
      ["sno", "hallticketno", "rank", "name", "sex", "caste", "region", "seatcategory"]
    ∧ (cells.length ≤ 1 → jsLookup "hallticketno" (mkRecord cells) = JsValue.vUndef)
    ∧ (cells.length ≤ 3 → jsLookup "name" (mkRecord cells) = JsValue.vUndef)
    ∧ (cells.length ≤ 4 → jsLookup "sex" (mkRecord cells) = JsValue.vUndef)
    ∧ (cells.length ≤ 5 → jsLookup "caste" (mkRecord cells) = JsValue.vUndef)
    ∧ (cells.length ≤ 6 → jsLookup "region" (mkRecord cells) = JsValue.vUndef)
    ∧ (cells.length ≤ 7 → jsLookup "seatcategory" (mkRecord cells) = JsValue.vUndef)
    ∧ (cells.length = 0 → jsLookup "sno" (mkRecord cells) = JsValue.vNum none)
    ∧ (cells.length ≤ 2 → jsLookup "rank" (mkRecord cells) = JsValue.vNum none)
    ∧ serializeValueL JsValue.vUndef = []
    ∧ serializeValueL (JsValue.vNum none) = ("NaN").data := by
  refine ⟨by simp [mkRecord], ?_, ?_, ?_, ?_, ?_, ?_, ?_, ?_, rfl, by decide⟩
  all_goals intro h
  · have hx : cells[1]? = none := List.getElem?_eq_none (by omega)
    simp [mkRecord, jsLookup, strCell, numCell, cellText, hx]
  · have hx : cells[3]? = none := List.getElem?_eq_none (by omega)
    simp [mkRecord, jsLookup, strCell, numCell, cellText, hx]
  · have hx : cells[4]? = none := List.getElem?_eq_none (by omega)
    simp [mkRecord, jsLookup, strCell, numCell, cellText, hx]
  · have hx : cells[5]? = none := List.getElem?_eq_none (by omega)
    simp [mkRecord, jsLookup, strCell, numCell, cellText, hx]
  · have hx : cells[6]? = none := List.getElem?_eq_none (by omega)
    simp [mkRecord, jsLookup, strCell, numCell, cellText, hx]
  · have hx : cells[7]? = none := List.getElem?_eq_none (by omega)
    simp [mkRecord, jsLookup, strCell, numCell, cellText, hx]
  · have hx : cells[0]? = none := List.getElem?_eq_none (by omega)
    simp [mkRecord, jsLookup, strCell, numCell, cellText, hx]
  · have hx : cells[2]? = none := List.getElem?_eq_none (by omega)
    simp [mkRecord, jsLookup, strCell, numCell, cellText, hx]

/-- C10 amended witness at the two-cell row. -/
theorem shortRow_amended_witness :
    jsLookup "name" (mkRecord ["1", "HT1"]) = JsValue.vUndef :=
  (shortRow_amended ["1", "HT1"]).2.2.1 (by decide)

lemma undouble_cons (c : Char) (l : List Char) (hc : c ≠ '"') :
    undoubleL (c :: l) = c :: undoubleL l := by
  cases l with
  | nil => rfl
  | cons c2 t => simp [undoubleL, hc]

lemma undouble_doubleQuotes (s : List Char) : undoubleL (doubleQuotesL s) = s := by
  induction s with
  | nil => rfl
  | cons c t ih =>
    by_cases hc : c = '"'
    · subst hc
      have hd : doubleQuotesL ('"' :: t) = '"' :: '"' :: doubleQuotesL t := by
        simp [doubleQuotesL]
      rw [hd]
      simp [undoubleL, ih]
    · have hd : doubleQuotesL (c :: t) = c :: doubleQuotesL t := by
        simp [doubleQuotesL, hc]
      rw [hd, undouble_cons c _ hc, ih]

lemma doubleQuotes_id (s : List Char) (h : '"' ∉ s) : doubleQuotesL s = s := by
  induction s with
  | nil => rfl
  | cons c t ih =>
    have hc : c ≠ '"' := fun he => h (by simp [he])
    have ht : '"' ∉ t := fun hm => h (List.mem_cons_of_mem _ hm)
    simp [doubleQuotesL, hc, ih ht]

lemma undouble_id (s : List Char) (h : '"' ∉ s) : undoubleL s = s := by
  induction s with
  | nil => rfl
  | cons c t ih =>
    have hc : c ≠ '"' := fun he => h (by simp [he])
    have ht : '"' ∉ t := fun hm => h (List.mem_cons_of_mem _ hm)
    rw [undouble_cons c t hc, ih ht]

lemma unescape_quoteWrapped (e : List Char) :
    unescapeL ('"' :: e ++ [ '"' ]) = undoubleL e := by
  have hlen : 2 ≤ ('"' :: e ++ [ '"' ]).length := by
    simp only [List.cons_append, List.length_cons, List.length_append, List.length_singleton]
    omega
  have hhead : ('"' :: e ++ [ '"' ]).head? = some '"' := rfl
  have hlast : ('"' :: e ++ [ '"' ]).getLast? = some '"' := by
    rw [show ('"' :: e ++ [ '"' ]) = ('"' :: e) ++ [ '"' ] from rfl, List.getLast?_concat]
  unfold unescapeL
  rw [if_pos ⟨hlen, hhead, hlast⟩]
  congr 1
  rw [show ('"' :: e ++ [ '"' ]) = ('"' :: e) ++ [ '"' ] from rfl, List.dropLast_concat]
  rfl

lemma unescape_escape (s : List Char) (h : '"' ∈ s → ',' ∈ s ∨ '\n' ∈ s) :
    unescapeL (escapeL s) = s := by
  by_cases hw : ',' ∈ doubleQuotesL s ∨ '\n' ∈ doubleQuotesL s
  · rw [show escapeL s = '"' :: doubleQuotesL s ++ [ '"' ] from by simp [escapeL, hw]]
    rw [unescape_quoteWrapped, undouble_doubleQuotes]
  · have hcm : ',' ∉ s := fun hx => hw (Or.inl ((mem_doubleQuotesL ',' (by decide) s).mpr hx))
    have hnl : '\n' ∉ s := fun hx => hw (Or.inr ((mem_doubleQuotesL '\n' (by decide) s).mpr hx))
    have hq : '"' ∉ s := fun hx => by
      rcases h hx with h1 | h1
      exacts [hcm h1, hnl h1]
    rw [show escapeL s = s from by simp [escapeL, doubleQuotes_id s hq, hcm, hnl]]
    have hcond : ¬(2 ≤ s.length ∧ s.head? = some '"' ∧ s.getLast? = some '"') := by
      rintro ⟨hlen, hhead, hlast⟩
      cases s with
      | nil => simp at hhead
      | cons c t =>
        have hc : c = '"' := by simpa using hhead
        exact hq (by simp [hc])
    simp only [unescapeL, if_neg hcond]

lemma consHead_ne_nil (c : Char) (X : List (List Char)) : consHead c X ≠ [] := by
  cases X <;> simp [consHead]

lemma splitQAux_ne_nil (sep : Char) (inQ : Bool) (s : List Char) :
    splitQAux sep inQ s ≠ [] := by
  cases s with
  | nil => simp [splitQAux]
  | cons c t =>
    unfold splitQAux
    by_cases h1 : c = '"'
    · simp only [if_pos h1]
      exact consHead_ne_nil _ _
    · by_cases h2 : c = sep ∧ inQ = false
      · simp only [if_neg h1, if_pos h2]
        simp
      · simp only [if_neg h1, if_neg h2]
        exact consHead_ne_nil _ _

lemma consHead_consChunk (c : Char) (f : List Char) (X : List (List Char)) :
    consHead c (consChunk f X) = consChunk (c :: f) X := by
  cases X <;> simp [consHead, consChunk]

lemma consChunk_consChunk (f g : List Char) (X : List (List Char)) :
    consChunk f (consChunk g X) = consChunk (f ++ g) X := by
  cases X <;> simp [consChunk]

lemma consHead_eq_consChunk (c : Char) (X : List (List Char)) :
    consHead c X = consChunk [c] X := by
  cases X <;> simp [consHead, consChunk]

lemma splitQAux_quote (sep : Char) (inQ : Bool) (l : List Char) :
    splitQAux sep inQ ('"' :: l) = consHead '"' (splitQAux sep (!inQ) l) := by
  simp [splitQAux]

lemma splitQAux_other (sep c : Char) (inQ : Bool) (l : List Char)
    (h1 : c ≠ '"') (h2 : ¬(c = sep ∧ inQ = false)) :
    splitQAux sep inQ (c :: l) = consHead c (splitQAux sep inQ l) := by
  simp only [splitQAux]
  rw [if_neg h1, if_neg h2]

lemma splitQAux_sep (sep : Char) (hsep : sep ≠ '"') (l : List Char) :
    splitQAux sep false (sep :: l) = [] :: splitQAux sep false l := by
  simp [splitQAux, hsep]

lemma pushable_nil (sep : Char) : Pushable sep [] := by
  intro l
  rw [List.nil_append]
  obtain ⟨a, b, hx⟩ := List.exists_cons_of_ne_nil (splitQAux_ne_nil sep false l)
  rw [hx]
  simp [consChunk]

lemma pushable_append (sep : Char) (f g : List Char)
    (hf : Pushable sep f) (hg : Pushable sep g) : Pushable sep (f ++ g) := by
  intro l
  rw [List.append_assoc, hf (g ++ l), hg l, consChunk_consChunk]

lemma pushable_single (sep c : Char) (h1 : c ≠ sep) (h2 : c ≠ '"') :
    Pushable sep [c] := by
  intro l
  show splitQAux sep false (c :: l) = _
  rw [splitQAux_other sep c false l h2 (fun hx => h1 hx.1)]
  exact consHead_eq_consChunk c _

lemma pushable_noSpecial (sep : Char) (f : List Char)
    (h1 : sep ∉ f) (h2 : '"' ∉ f) : Pushable sep f := by
  induction f with
  | nil => exact pushable_nil sep
  | cons c t ih =>
    have hc1 : c ≠ sep := fun he => h1 (by simp [he])
    have hc2 : c ≠ '"' := fun he => h2 (by simp [he])
    have ht := ih (fun hm => h1 (List.mem_cons_of_mem _ hm))
      (fun hm => h2 (List.mem_cons_of_mem _ hm))
    exact pushable_append sep [c] t (pushable_single sep c hc1 hc2) ht

lemma splitQAux_double (sep : Char) (s l : List Char) :
    splitQAux sep true (doubleQuotesL s ++ l)
      = consChunk (doubleQuotesL s) (splitQAux sep true l) := by
  induction s with
  | nil =>
    simp only [doubleQuotesL, List.nil_append]
    obtain ⟨a, b, hx⟩ := List.exists_cons_of_ne_nil (splitQAux_ne_nil sep true l)
    rw [hx]
    simp [consChunk]
  | cons c t ih =>
    by_cases hc : c = '"'
    · subst hc
      have hd : doubleQuotesL ('"' :: t) = '"' :: '"' :: doubleQuotesL t := by
        simp [doubleQuotesL]
      rw [hd, List.cons_append, List.cons_append, splitQAux_quote]
      simp only [Bool.not_true]
      rw [splitQAux_quote]
      simp only [Bool.not_false]
      rw [ih, consHead_consChunk, consHead_consChunk]
    · have hd : doubleQuotesL (c :: t) = c :: doubleQuotesL t := by
        simp [doubleQuotesL, hc]
      rw [hd, List.cons_append,
        splitQAux_other sep c true _ hc (by rintro ⟨_, hfe⟩; exact absurd hfe (by decide)),
        ih, consHead_consChunk]

lemma pushable_wrapped (sep : Char) (s : List Char) :
    Pushable sep ('"' :: doubleQuotesL s ++ [ '"' ]) := by
  intro l
  have h1 : ('"' :: doubleQuotesL s ++ [ '"' ]) ++ l
      = '"' :: (doubleQuotesL s ++ ('"' :: l)) := by
    simp [List.append_assoc]
  rw [h1, splitQAux_quote]
  simp only [Bool.not_false]
  rw [splitQAux_double sep, splitQAux_quote]
  simp only [Bool.not_true]
  obtain ⟨a, b, hx⟩ := List.exists_cons_of_ne_nil (splitQAux_ne_nil sep false l)
  rw [hx]
  simp [consHead, consChunk, List.append_assoc]

lemma pushable_escape (sep : Char) (hcm : sep = ',' ∨ sep = '\n') (s : List Char)
    (h : '"' ∈ s → ',' ∈ s ∨ '\n' ∈ s) : Pushable sep (escapeL s) := by
  by_cases hw : ',' ∈ doubleQuotesL s ∨ '\n' ∈ doubleQuotesL s
  · rw [show escapeL s = '"' :: doubleQuotesL s ++ [ '"' ] from by simp [escapeL, hw]]
    exact pushable_wrapped sep s
  · have hc2 : ',' ∉ s := fun hx => hw (Or.inl ((mem_doubleQuotesL ',' (by decide) s).mpr hx))
    have hn2 : '\n' ∉ s := fun hx => hw (Or.inr ((mem_doubleQuotesL '\n' (by decide) s).mpr hx))
    have hq : '"' ∉ s := fun hx => by
      rcases h hx with h1 | h1
      exacts [hc2 h1, hn2 h1]
    rw [show escapeL s = s from by simp [escapeL, doubleQuotes_id s hq, hc2, hn2]]
    refine pushable_noSpecial sep s ?_ hq
    rcases hcm with rfl | rfl
    exacts [hc2, hn2]

lemma pushable_headerField (sep : Char) (k : List Char) (hq : '"' ∉ k) :
    Pushable sep ('"' :: k ++ [ '"' ]) := by
  have hp := pushable_wrapped sep k
  rwa [doubleQuotes_id k hq] at hp

lemma unescape_headerField (k : List Char) (hq : '"' ∉ k) :
    unescapeL ('"' :: k ++ [ '"' ]) = k := by
  rw [unescape_quoteWrapped, undouble_id k hq]

lemma splitQ_joinSep (sep : Char) (hsep : sep ≠ '"') :
    ∀ fs : List (List Char), fs ≠ [] → (∀ f ∈ fs, Pushable sep f) →
      splitQ sep (joinSep sep fs) = fs
  | [], hne, _ => absurd rfl hne
  | [f], _, hall => by
    show splitQAux sep false (joinSep sep [f]) = [f]
    have hp := hall f (by simp) ([] : List Char)
    rw [List.append_nil] at hp
    rw [show joinSep sep [f] = f from rfl, hp]
    simp [splitQAux, consChunk]
  | f :: f2 :: fs2, _, hall => by
    show splitQAux sep false (joinSep sep (f :: f2 :: fs2)) = f :: f2 :: fs2
    rw [show joinSep sep (f :: f2 :: fs2) = f ++ sep :: joinSep sep (f2 :: fs2) from rfl]
    rw [hall f (by simp) (sep :: joinSep sep (f2 :: fs2)), splitQAux_sep sep hsep]
    have ih := splitQ_joinSep sep hsep (f2 :: fs2) (by simp)
      (fun g hg => hall g (List.mem_cons_of_mem f hg))
    rw [show splitQ sep (joinSep sep (f2 :: fs2))
        = splitQAux sep false (joinSep sep (f2 :: fs2)) from rfl] at ih
    rw [ih]
    simp [consChunk]

lemma pushable_joinSep (sep sepIn : Char) (h1 : sepIn ≠ sep) (h2 : sepIn ≠ '"') :
    ∀ fs : List (List Char), (∀ f ∈ fs, Pushable sep f) → Pushable sep (joinSep sepIn fs)
  | [], _ => pushable_nil sep
  | [f], hall => hall f (by simp)
  | f :: f2 :: fs2, hall => by
    rw [show joinSep sepIn (f :: f2 :: fs2) = f ++ sepIn :: joinSep sepIn (f2 :: fs2) from rfl]
    refine pushable_append sep _ _ (hall f (by simp)) ?_
    rw [show (sepIn :: joinSep sepIn (f2 :: fs2)) = [sepIn] ++ joinSep sepIn (f2 :: fs2) from rfl]
    exact pushable_append sep _ _ (pushable_single sep sepIn h1 h2)
      (pushable_joinSep sep sepIn h1 h2 (f2 :: fs2)
        (fun g hg => hall g (List.mem_cons_of_mem f hg)))

lemma jsLookup_cases (k : String) (r : JsRecord) :
    jsLookup k r = JsValue.vUndef ∨ ∃ p ∈ r, jsLookup k r = p.2 := by
  induction r with
  | nil => exact Or.inl rfl
  | cons p t ih =>
    obtain ⟨k2, v⟩ := p
    by_cases hk : k2 = k
    · right
      exact ⟨(k2, v), by simp, by simp [jsLookup, hk]⟩
    · rcases ih with h | ⟨q, hq, hh⟩
      · left
        simpa [jsLookup, hk] using h
      · right
        exact ⟨q, by simp [hq], by simpa [jsLookup, hk] using hh⟩

lemma map_jsLookup_self (r : JsRecord) (hnd : (r.map Prod.fst).Nodup) :
    (r.map Prod.fst).map (fun k => jsLookup k r) = r.map Prod.snd := by
  induction r with
  | nil => rfl
  | cons p t ih =>
    obtain ⟨k, v⟩ := p
    simp only [List.map_cons] at hnd ⊢
    have hk : k ∉ t.map Prod.fst := (List.nodup_cons.mp hnd).1
    have hnd2 := (List.nodup_cons.mp hnd).2
    congr 1
    · simp [jsLookup]
    · have hcong : ∀ k2 ∈ t.map Prod.fst, jsLookup k2 ((k, v) :: t) = jsLookup k2 t := by
        intro k2 hk2
        have hne : k ≠ k2 := fun he => hk (he ▸ hk2)
        simp [jsLookup, hne]
      rw [List.map_congr_left hcong, ih hnd2]

lemma zip_fst_snd (r : JsRecord) : (r.map Prod.fst).zip (r.map Prod.snd) = r := by
  induction r with
  | nil => rfl
  | cons p t ih =>
    cases p
    simp [ih]

lemma map_map_id {A B : Type} (f : A → B) (g : B → A) (l : List A)
    (h : ∀ a ∈ l, g (f a) = a) : (l.map f).map g = l := by
  induction l with
  | nil => rfl
  | cons a t ih =>
    simp only [List.map_cons]
    rw [h a (by simp), ih (fun b hb => h b (List.mem_cons_of_mem a hb))]

/-- C1 counterexample: a record whose only field value contains a quote
but no comma or newline serializes with doubled quotes yet unwrapped, so
deserializing yields the doubled-quote string, not the original. -/
theorem roundTrip_quote_counterexample :
    deserializeCsv (convertToCsv [ [("f", JsValue.vStr "a\"b")] ])
      = [ [("f", JsValue.vStr "a\"\"b")] ]
    ∧ ("a\"\"b" : String) ≠ "a\"b" := by
  decide

/-- C1 amended: serialize-then-deserialize is the identity on nonempty
uniform-schema record sequences whose field names are duplicate-free and
contain no quote, comma, or newline characters, and whose values are all
strings in which any embedded quote is accompanied by a comma or a
newline (the wrap trigger). Without that proviso the round-trip fails:
a value with a quote but no comma or newline is emitted with doubled
quotes yet unwrapped, and reads back differently; null/absent and
numeric values likewise do not read back as themselves. -/
theorem roundTrip_amended (r0 : JsRecord) (rs : List JsRecord)
    (hkeys : ∀ r ∈ r0 :: rs, r.map Prod.fst = r0.map Prod.fst)
    (hnd : (r0.map Prod.fst).Nodup)
    (hne : r0 ≠ [])
    (hheaders : ∀ k ∈ r0.map Prod.fst, '"' ∉ k.data ∧ ',' ∉ k.data ∧ '\n' ∉ k.data)
    (hvals : ∀ r ∈ r0 :: rs, ∀ p ∈ r, ∃ s : String,
        p.2 = JsValue.vStr s ∧ ('"' ∈ s.data → ',' ∈ s.data ∨ '\n' ∈ s.data)) :
    deserializeCsv (convertToCsv (r0 :: rs)) = r0 :: rs := by
  have hdoc : (convertToCsv (r0 :: rs)).data
      = joinSep '\n'
          (joinSep ',' ((r0.map Prod.fst).map (fun k => '"' :: k.data ++ [ '"' ]))
            :: (r0 :: rs).map (fun row =>
                 joinSep ',' ((r0.map Prod.fst).map
                   (fun k => serializeValueL (jsLookup k row))))) := rfl
  have hrowfields : ∀ r ∈ r0 :: rs,
      (r0.map Prod.fst).map (fun k => serializeValueL (jsLookup k r))
        = (r.map Prod.snd).map serializeValueL := by
    intro r hr
    rw [← hkeys r hr,
      show (fun k => serializeValueL (jsLookup k r))
        = serializeValueL ∘ (fun k => jsLookup k r) from rfl,
      ← List.map_map, map_jsLookup_self r (by rw [hkeys r hr]; exact hnd)]
  have hvstr : ∀ r ∈ r0 :: rs, ∀ v ∈ r.map Prod.snd, ∃ s : String,
      v = JsValue.vStr s ∧ ('"' ∈ s.data → ',' ∈ s.data ∨ '\n' ∈ s.data) := by
    intro r hr v hv
    obtain ⟨p, hp, hpv⟩ := List.mem_map.mp hv
    obtain ⟨s, hs1, hs2⟩ := hvals r hr p hp
    exact ⟨s, by rw [← hpv]; exact hs1, hs2⟩
  have hpush : ∀ r ∈ r0 :: rs, ∀ sep : Char, sep = ',' ∨ sep = '\n' →
      ∀ f ∈ (r.map Prod.snd).map serializeValueL, Pushable sep f := by
    intro r hr sep hsep f hf
    obtain ⟨v, hv, hfv⟩ := List.mem_map.mp hf
    obtain ⟨s, hs1, hs2⟩ := hvstr r hr v hv
    rw [← hfv, hs1]
    exact pushable_escape sep hsep s.data hs2
  have hheadpush : ∀ sep : Char,
      ∀ f ∈ (r0.map Prod.fst).map (fun k => '"' :: k.data ++ [ '"' ]), Pushable sep f := by
    intro sep f hf
    obtain ⟨k, hk, hfk⟩ := List.mem_map.mp hf
    rw [← hfk]
    exact pushable_headerField sep k.data (hheaders k hk).1
  have hHne : r0.map Prod.fst ≠ [] := by
    cases r0 with
    | nil => exact absurd rfl hne
    | cons p t => simp
  have hlines : splitQ '\n' (convertToCsv (r0 :: rs)).data
      = joinSep ',' ((r0.map Prod.fst).map (fun k => '"' :: k.data ++ [ '"' ]))
        :: (r0 :: rs).map (fun row =>
             joinSep ',' ((r0.map Prod.fst).map
               (fun k => serializeValueL (jsLookup k row)))) := by
    rw [hdoc]
    refine splitQ_joinSep '\n' (by decide) _ (by simp) ?_
    intro f hf
    rcases List.mem_cons.mp hf with rfl | hf2
    · exact pushable_joinSep '\n' ',' (by decide) (by decide) _ (hheadpush '\n')
    · obtain ⟨r, hr, hrf⟩ := List.mem_map.mp hf2
      rw [← hrf, hrowfields r hr]
      exact pushable_joinSep '\n' ',' (by decide) (by decide) _
        (hpush r hr '\n' (Or.inr rfl))
  have hheaderline : (splitQ ',' (joinSep ','
        ((r0.map Prod.fst).map (fun k => '"' :: k.data ++ [ '"' ])))).map
          (fun f => String.mk (unescapeL f))
      = r0.map Prod.fst := by
    rw [splitQ_joinSep ',' (by decide) _ (by simpa using hHne) (hheadpush ','), List.map_map]
    conv_rhs => rw [show r0.map Prod.fst = (r0.map Prod.fst).map id from
      (List.map_id _).symm]
    refine List.map_congr_left ?_
    intro k hk
    show String.mk (unescapeL ('"' :: k.data ++ [ '"' ])) = k
    rw [unescape_headerField k.data (hheaders k hk).1]
  have hrow : ∀ r ∈ r0 :: rs,
      (r0.map Prod.fst).zip
        ((splitQ ',' (joinSep ','
          ((r0.map Prod.fst).map (fun k => serializeValueL (jsLookup k r))))).map
            (fun f => JsValue.vStr (String.mk (unescapeL f))))
      = r := by
    intro r hr
    have hrne : (r.map Prod.snd).map serializeValueL ≠ [] := by
      intro h0
      have hr0 : r = [] := by
        cases r with
        | nil => rfl
        | cons p t => simp at h0
      rw [hr0] at hr
      have hk0 := hkeys [] hr
      simp only [List.map_nil] at hk0
      exact hHne hk0.symm
    rw [hrowfields r hr,
      splitQ_joinSep ',' (by decide) _ hrne (hpush r hr ',' (Or.inl rfl)),
      List.map_map]
    have hfix : ∀ v ∈ r.map Prod.snd,
        ((fun f => JsValue.vStr (String.mk (unescapeL f))) ∘ serializeValueL) v = v := by
      intro v hv
      obtain ⟨s, hs1, hs2⟩ := hvstr r hr v hv
      subst hs1
      show JsValue.vStr (String.mk (unescapeL (serializeValueL (JsValue.vStr s))))
        = JsValue.vStr s
      rw [show serializeValueL (JsValue.vStr s) = escapeL s.data from rfl,
        unescape_escape s.data hs2]
    rw [List.map_congr_left hfix, List.map_id', ← hkeys r hr, zip_fst_snd]
  simp only [deserializeCsv, hlines]
  refine map_map_id _ _ _ ?_
  intro r hr
  rw [hheaderline]
  exact hrow r hr

/-- C1 amended witness: a concrete record with a quoted comma value and
a newline value round-trips exactly. -/
theorem roundTrip_amended_witness :
    deserializeCsv (convertToCsv [ [("f", JsValue.vStr "He said \"hi\", bye"),
        ("g", JsValue.vStr "x\ny")] ])
      = [ [("f", JsValue.vStr "He said \"hi\", bye"), ("g", JsValue.vStr "x\ny")] ] :=
  roundTrip_amended [("f", JsValue.vStr "He said \"hi\", bye"), ("g", JsValue.vStr "x\ny")] []
    (by decide) (by decide) (by decide) (by decide)
    (by
      intro r hr p hp
      rw [List.mem_singleton] at hr
      subst hr
      rcases List.mem_cons.mp hp with rfl | hp2
      · exact ⟨"He said \"hi\", bye", rfl, by decide⟩
      rcases List.mem_cons.mp hp2 with rfl | hp3
      · exact ⟨"x\ny", rfl, by decide⟩
      · exact absurd hp3 (by simp))
